import Mathlib

/-!
Verification of the Aura-Reads chunking pipeline.

The development shallowly embeds the two Python source files:
* `chunk_script.py`  — paragraph segmentation, age-based target size,
  greedy chunk assembly, sequential output numbering (namespace `ChunkScript`);
* `chunk_analysis.py` — JSON record loading/validation and the handling of
  the external analysis service's decoded response (namespace `ChunkAnalysis`).

Texts are modelled as `List Char`.  Python string primitives used by the
sources (`str.strip`, `str.split`, `int(...)`, the regex `\n\s*\n`) are
modelled in namespace `Py`.  Whitespace is modelled by the six ASCII
whitespace characters recognised by Python (`' '`, `\t`, `\n`, `\r`,
vertical tab, form feed); Unicode whitespace and `int`'s digit-grouping
underscores are outside the model.
-/

namespace Py

/-- The Python whitespace predicate (ASCII part): the characters matched by
`str.isspace`, `str.strip`, `str.split()` and the regex class `\s`. -/
def pyIsSpace (c : Char) : Bool :=
  c = ' ' || c = '\t' || c = '\n' || c = '\r' || c = '\u000b' || c = '\u000c'

/-- `str.lstrip()`: drop leading whitespace. -/
def lstrip (l : List Char) : List Char := l.dropWhile pyIsSpace

/-- `str.rstrip()`: drop trailing whitespace. -/
def rstrip (l : List Char) : List Char := (l.reverse.dropWhile pyIsSpace).reverse

/-- `str.strip()`: drop leading and trailing whitespace. -/
def pyStrip (l : List Char) : List Char := rstrip (lstrip l)

/-- One-pass scan counting maximal runs of non-whitespace characters;
the flag records whether the previous character was part of a word. -/
def wordCountAux : Bool → List Char → Nat
  | _, [] => 0
  | inWord, c :: rest =>
    if pyIsSpace c then wordCountAux false rest
    else (if inWord then 0 else 1) + wordCountAux true rest

/-- `len(s.split())`: the number of maximal runs of non-whitespace
characters (Python's whitespace-delimited word count). -/
def wordCount (l : List Char) : Nat := wordCountAux false l

/-- Value of a nonempty string of ASCII digits, `none` otherwise. -/
def parseDigits (l : List Char) : Option Nat :=
  if l ≠ [] ∧ l.all Char.isDigit then
    some (l.foldl (fun acc c => 10 * acc + (c.toNat - '0'.toNat)) 0)
  else none

/-- Python `int(s)` on a string: surrounding whitespace is stripped, an
optional single sign is allowed, the remainder must be all digits.
(Digit-grouping underscores accepted by CPython are not modelled.) -/
def pyInt (s : List Char) : Option Int :=
  match pyStrip s with
  | '+' :: rest => (parseDigits rest).map Int.ofNat
  | '-' :: rest => (parseDigits rest).map (fun n => -(n : Int))
  | t => (parseDigits t).map Int.ofNat

end Py

namespace ChunkScript

open Py

/-- `chunk_script.py`, class `ParagraphChunk`: a chunk of one or more
paragraphs (`id`, `content`, `word_count`). -/
structure ParagraphChunk where
  id : Nat
  content : List Char
  word_count : Nat

/-- `chunk_script.py` lines 16-39, `get_target_chunk_size`: the age-bucket
cascade of inclusive upper bounds. -/
def get_target_chunk_size (age : Int) : Int :=
  if age ≤ 12 then 150
  else if age ≤ 20 then 220
  else if age ≤ 35 then 250
  else if age ≤ 50 then 240
  else if age ≤ 65 then 200
  else 180

/-- Modelled from the spec (§4.2): the bucket policy as an explicit ordered
table of `(upperBoundInclusive, value)` pairs evaluated top-down with a
final default.  Used to state claim C8 as a refinement of the source's
conditional cascade. -/
def bucketLookup : List (Int × Int) → Int → Int → Int
  | [], _, dflt => dflt
  | (ub, v) :: rest, age, dflt => if age ≤ ub then v else bucketLookup rest age dflt

/-- The spec's bucket table: age ≤12 → 150; ≤20 → 220; ≤35 → 250;
≤50 → 240; ≤65 → 200 (default 180). -/
def targetBuckets : List (Int × Int) :=
  [(12, 150), (20, 220), (35, 250), (50, 240), (65, 200)]

/-- `"\n\n".join(...)` used when a chunk's content is built
(`chunk_script.py` lines 108, 116). -/
def joinDD : List (List Char) → List Char
  | [] => []
  | [p] => p
  | p :: ps => p ++ '\n' :: '\n' :: joinDD ps

/-- The loop of `chunk_paragraphs` (`chunk_script.py` lines 98-117),
with the running state (`current_chunk_content`, `current_chunk_word_count`,
`chunk_id`) passed explicitly.  The accumulator list is kept in order
(appending at the tail, as Python's `list.append` does). -/
def chunkLoop (target : Nat) : List (List Char) → List (List Char) → Nat → Nat →
    List ParagraphChunk
  | [], cur, cnt, cid =>
    if cur.isEmpty then [] else [⟨cid, joinDD cur, cnt⟩]
  | p :: ps, cur, cnt, cid =>
    if cur.isEmpty then
      chunkLoop target ps (cur ++ [p]) (cnt + wordCount p) cid
    else if cnt < target then
      chunkLoop target ps (cur ++ [p]) (cnt + wordCount p) cid
    else
      ⟨cid, joinDD cur, cnt⟩ :: chunkLoop target ps [p] (wordCount p) (cid + 1)

/-- `chunk_script.py` lines 78-119, `chunk_paragraphs`: greedy grouping of
paragraphs into chunks of a target word count. -/
def chunk_paragraphs (paragraphs : List (List Char)) (target : Nat) :
    List ParagraphChunk :=
  chunkLoop target paragraphs [] 0 0

/-- Sum of the whitespace-delimited word counts of a group of paragraphs. -/
def wcSum (g : List (List Char)) : Nat := (g.map wordCount).sum

/-- The grouping performed by `chunk_paragraphs`, recorded as the list of
constituent-paragraph groups instead of assembled chunks.  Mirrors
`chunkLoop` exactly (the running count of `chunkLoop` always equals
`wcSum` of the accumulator); the correspondence is proved in
`chunkLoop_eq_mkChunks`. -/
def chunkGroupsLoop (target : Nat) : List (List Char) → List (List Char) →
    List (List (List Char))
  | [], cur => if cur.isEmpty then [] else [cur]
  | p :: ps, cur =>
    if cur.isEmpty then chunkGroupsLoop target ps (cur ++ [p])
    else if wcSum cur < target then chunkGroupsLoop target ps (cur ++ [p])
    else cur :: chunkGroupsLoop target ps [p]

/-- The constituent-paragraph groups of the chunks built by
`chunk_paragraphs`. -/
def chunkGroups (paragraphs : List (List Char)) (target : Nat) :
    List (List (List Char)) :=
  chunkGroupsLoop target paragraphs []

/-- Assemble chunks from groups: sequential ids starting at `cid`, content
joined by a blank line, word count the sum over the group's paragraphs. -/
def mkChunks : Nat → List (List (List Char)) → List ParagraphChunk
  | _, [] => []
  | cid, g :: gs => ⟨cid, joinDD g, wcSum g⟩ :: mkChunks (cid + 1) gs

/-- Index of the last occurrence of `'\n'` in a character list. -/
def lastNlIdx : List Char → Option Nat
  | [] => none
  | c :: rest =>
    match lastNlIdx rest with
    | some k => some (k + 1)
    | none => if c = '\n' then some 0 else none

/-- The scan of `re.split(r'\n\s*\n', text)` (`chunk_script.py` line 74),
on the accumulated characters of the current piece and the remaining input.
A separator match starts at a `'\n'` whose following whitespace run contains
another `'\n'`; the greedy `\s*` makes the match extend to the last `'\n'`
of that whitespace run. -/
def reSplitAux : List Char → List Char → List (List Char)
  | [], acc => [acc]
  | c :: rest, acc =>
    if c = '\n' then
      match lastNlIdx (rest.takeWhile pyIsSpace) with
      | some k => acc :: reSplitAux (rest.drop (k + 1)) []
      | none => reSplitAux rest (acc ++ [c])
    else reSplitAux rest (acc ++ [c])
termination_by s _ => s.length
decreasing_by
  · simp only [List.length_cons, List.length_drop]
    omega
  · simp only [List.length_cons]
    omega
  · simp only [List.length_cons]
    omega

/-- `re.split(r'\n\s*\n', text)`: the raw pieces between the blank-line
separators. -/
def reSplit (s : List Char) : List (List Char) := reSplitAux s []

/-- The list comprehension `[p.strip() for p in paragraphs if p.strip()]`:
strip every piece and keep the non-empty results. -/
def filterStrip (ps : List (List Char)) : List (List Char) :=
  (ps.map pyStrip).filter (fun p => !p.isEmpty)

/-- `chunk_script.py` lines 62-76, `split_into_paragraphs`: split the text
on the regex `\n\s*\n`, strip each piece, drop the pieces that become
empty. -/
def split_into_paragraphs (text : List Char) : List (List Char) :=
  filterStrip (reSplit text)

/-- Prepend an element to the first sublist (helper for splitters). -/
def consHead {α : Type} (a : α) : List (List α) → List (List α)
  | [] => [[a]]
  | h :: t => (a :: h) :: t

/-- Modelled from the spec (claim C1: "undoing the blank-line join"):
split a chunk's content back on occurrences of the two-character
separator `"\n\n"` to recover its constituent paragraphs
(the inverse of `joinDD` on separator-free paragraphs). -/
def splitOnDD : List Char → List (List Char)
  | [] => [[]]
  | [c] => [[c]]
  | c₁ :: c₂ :: rest =>
    if c₁ = '\n' ∧ c₂ = '\n' then [] :: splitOnDD rest
    else consHead c₁ (splitOnDD (c₂ :: rest))

/-- Whether a character list contains two adjacent `'\n'` characters. -/
def hasDD : List Char → Bool
  | [] => false
  | [_] => false
  | c₁ :: c₂ :: rest => (c₁ = '\n' && c₂ = '\n') || hasDD (c₂ :: rest)

/-- Split a character list into its lines (Python `s.split('\n')`). -/
def splitNl : List Char → List (List Char)
  | [] => [[]]
  | c :: rest => if c = '\n' then [] :: splitNl rest else consHead c (splitNl rest)

/-- A blank line: whitespace-only (possibly empty). -/
def isBlankLine (l : List Char) : Bool := l.all pyIsSpace

/-- Modelled from the spec (§4.1): treat every blank line as a separator
between groups of consecutive non-blank lines. -/
def splitOnBlankLines : List (List Char) → List (List (List Char))
  | [] => [[]]
  | ln :: rest =>
    if isBlankLine ln then [] :: splitOnBlankLines rest
    else consHead ln (splitOnBlankLines rest)

/-- Join lines with `'\n'` (inverse of `splitNl`). -/
def joinNl : List (List Char) → List Char
  | [] => []
  | [l] => l
  | l :: ls => l ++ '\n' :: joinNl ls

/-- Strip each group's joined text and drop the groups that become
empty (spec-side counterpart of `filterStrip`). -/
def groupStrip (gs : List (List (List Char))) : List (List Char) :=
  (gs.map (fun g => pyStrip (joinNl g))).filter (fun p => !p.isEmpty)

/-- Modelled from the spec (§4.1, claim C9): split on any run of one or
more blank lines, trim each piece of surrounding whitespace, drop
pieces that become empty, preserving order. -/
def specSegment (text : List Char) : List (List Char) :=
  groupStrip (splitOnBlankLines (splitNl text))

/-- Drop leading blank lines from a line list, but always keep the final
line (whose terminating newline does not exist, so the regex separator
cannot consume it). -/
def dropBlanksKL : List (List Char) → List (List Char)
  | [] => []
  | [m] => [m]
  | m :: m' :: rest =>
    if isBlankLine m then dropBlanksKL (m' :: rest) else m :: m' :: rest

/-- Prepend characters to the first piece (helper). -/
def consPre (a : List Char) : List (List Char) → List (List Char)
  | [] => [a]
  | p :: ps => (a ++ p) :: ps

/-- The regex split expressed on the line decomposition of the text:
a separator is recognised exactly when the line after the current one is
blank and is itself newline-terminated.  Proved equal to `reSplit` over
`splitNl` in `reSplit_eq_linePieces`. -/
def linePieces : List (List Char) → List (List Char)
  | [] => [[]]
  | [l] => [l]
  | l :: m :: ms =>
    if isBlankLine m ∧ ms ≠ [] then l :: linePieces (dropBlanksKL ms)
    else consPre (l ++ ['\n']) (linePieces (m :: ms))
termination_by ls => ls.length
decreasing_by
  · have hle : ∀ l : List (List Char), (dropBlanksKL l).length ≤ l.length := by
      intro l
      induction l using dropBlanksKL.induct with
      | case1 => simp [dropBlanksKL]
      | case2 => simp [dropBlanksKL]
      | case3 m m' rest hb ih =>
        rw [dropBlanksKL, if_pos hb]
        simp only [List.length_cons] at ih ⊢
        omega
      | case4 m m' rest hb =>
        rw [dropBlanksKL, if_neg hb]
    simp only [List.length_cons]
    refine lt_of_le_of_lt (hle _) ?_
    omega
  · simp only [List.length_cons]
    omega

/-- `filename.endswith('.json')` (`chunk_script.py` line 137). -/
def endsWithJson (name : List Char) : Bool :=
  decide (5 ≤ name.length) && name.drop (name.length - 5) == ['.', 'j', 's', 'o', 'n']

/-- Index of the last occurrence of `'.'` in a character list. -/
def lastDotIdx : List Char → Option Nat
  | [] => none
  | c :: rest =>
    match lastDotIdx rest with
    | some k => some (k + 1)
    | none => if c = '.' then some 0 else none

/-- The stem computed by `os.path.splitext(filename)[0]`
(`chunk_script.py` line 138): split at the last dot unless every character
before it is itself a dot (leading dots are part of the name). -/
def splitextStem (name : List Char) : List Char :=
  match lastDotIdx name with
  | none => name
  | some i => if (name.take i).any (fun c => c ≠ '.') then name.take i else name

/-- The `existing_ids` collected by `get_next_output_path`
(`chunk_script.py` lines 135-142): for each listed filename ending in
`.json`, parse the stem with `int(...)`; parse failures are skipped. -/
def parsedIds (filenames : List (List Char)) : List Int :=
  filenames.filterMap fun fn =>
    if endsWithJson fn then pyInt (splitextStem fn) else none

/-- The numeric core of `get_next_output_path` (`chunk_script.py`
line 144): `max(existing_ids) + 1 if existing_ids else 0`. -/
def nextId (filenames : List (List Char)) : Int :=
  match (parsedIds filenames).max? with
  | some m => m + 1
  | none => 0

/-- A 200-character paragraph whose whitespace-delimited word count
is 100 (concrete data for claim C2). -/
def w100 : List Char := (List.replicate 100 ['a', ' ']).flatten

end ChunkScript

namespace ChunkAnalysis

/-- Decoded JSON values (the result of `json.load` / `json.loads`).
Floating-point numbers are not needed by the claims and are not
modelled. -/
inductive Json where
  | jnull : Json
  | jbool : Bool → Json
  | jint : Int → Json
  | jstr : String → Json
  | jarr : List Json → Json
  | jobj : List (String × Json) → Json

/-- Field lookup in a decoded JSON object (Python dict access; keys are
unique in decoded JSON, so first match suffices). -/
def lookupField : List (String × Json) → String → Option Json
  | [], _ => none
  | (k, v) :: rest, key => if k = key then some v else lookupField rest key

/-- `chunk_analysis.py` lines 23-29, `ParagraphChunk`: the inbound record
schema `{id: int, content: str}`; extra fields are ignored by pydantic. -/
structure ParagraphChunk where
  id : Int
  content : String

/-- Pydantic (v2, lax mode) coercion for an `int` field: accepts a JSON
integer, or a string parsing as an integer; rejects booleans and
everything else. -/
def coerceInt : Json → Option Int
  | .jint n => some n
  | .jstr s => Py.pyInt s.data
  | _ => none

/-- Pydantic (v2, lax mode) validation for a `str` field: accepts only a
JSON string. -/
def coerceStr : Json → Option String
  | .jstr s => some s
  | _ => none

/-- Construction of one `ParagraphChunk(**item)` from a decoded JSON
object's fields: both required fields must be present and coercible;
unknown extra fields are ignored. -/
def validateItem (fields : List (String × Json)) : Option ParagraphChunk :=
  match lookupField fields "id", lookupField fields "content" with
  | some idv, some cv =>
    match coerceInt idv, coerceStr cv with
    | some n, some s => some ⟨n, s⟩
    | _, _ => none
  | _, _ => none

/-- Python exceptions relevant to `load_chunks_from_file`:
`json.JSONDecodeError` from `json.load`, `TypeError` from
`ParagraphChunk(**item)` on a non-mapping item or from iterating a
non-iterable, and pydantic's `ValidationError` carrying the first failing
element (the list comprehension stops at the first raise). -/
inductive PyExc where
  | jsonDecode : PyExc
  | notIterable : PyExc
  | typeErr : Nat → Json → PyExc
  | validationError : Nat → Json → PyExc

/-- The comprehension `[ParagraphChunk(**item) for item in data]`
(`chunk_analysis.py` line 70): items are processed left to right; the
first non-mapping item raises `TypeError`, the first mapping item with
invalid fields raises `ValidationError`; otherwise all records are built. -/
def buildRecords : Nat → List Json → Except PyExc (List ParagraphChunk)
  | _, [] => .ok []
  | idx, j :: rest =>
    match j with
    | .jobj fields =>
      match validateItem fields with
      | some r => (buildRecords (idx + 1) rest).map (fun rs => r :: rs)
      | none => .error (.validationError idx j)
    | _ => .error (.typeErr idx j)

/-- Python iteration over the decoded value `data` (`for item in data`):
arrays yield their elements, dicts their keys, strings their characters;
other values raise `TypeError`. -/
def pyIter : Json → Option (List Json)
  | .jarr xs => some xs
  | .jobj fields => some (fields.map (fun kv => Json.jstr kv.1))
  | .jstr s => some (s.data.map (fun c => Json.jstr (String.mk [c])))
  | _ => none

/-- `chunk_analysis.py` lines 51-74, `load_chunks_from_file`.
`fileExists` models `os.path.exists`; `decoded` is the result of
`json.load` (`none` when the file content is not valid JSON, in which
case the `JSONDecodeError` is raised outside the `try` block and
propagates).  Only `ValidationError` is caught (printing a diagnostic of
the first failing element and returning `[]`); `TypeError` propagates. -/
def load_chunks_from_file (fileExists : Bool) (decoded : Option Json) :
    Except PyExc (List ParagraphChunk) :=
  if !fileExists then .ok []
  else
    match decoded with
    | none => .error .jsonDecode
    | some v =>
      match pyIter v with
      | none => .error .notIterable
      | some items =>
        match buildRecords 0 items with
        | .ok rs => .ok rs
        | .error (.validationError _ _) => .ok []
        | .error e => .error e

/-- `chunk_analysis.py` lines 118-133: the handling of the external
service's response.  `none` models the `except` branch (the request or
`json.loads` raised, returning `[]`); otherwise the code returns
`result_data.get("analysis_results", [])` verbatim — an `AttributeError`
on a non-dict value is caught by the same `except`. -/
def extractAnalysisResults : Option Json → Json
  | none => .jarr []
  | some (.jobj fields) => (lookupField fields "analysis_results").getD (.jarr [])
  | some _ => .jarr []

/-- The closed `mood` enumeration (spec §6). -/
def moodValues : List String :=
  ["happy", "sad", "angry", "excited", "anxious", "confused", "surprised",
   "disappointed", "grateful", "lonely", "hopeful", "content", "frustrated"]

/-- The closed `sentiment` enumeration (spec §6). -/
def sentimentValues : List String := ["positive", "negative", "neutral"]

/-- The closed `type` enumeration (spec §6). -/
def typeValues : List String :=
  ["dialogue", "description", "action", "contemplation", "reflection"]

/-- Modelled from the spec (§3, §6): an AnalysisRecord-shaped object with
`paragraph_id: int`, `mood`/`sentiment`/`type` drawn from their closed
enumerations and a string `type_details`. -/
def validAnalysisRecord : Json → Bool
  | .jobj f =>
    (match lookupField f "paragraph_id" with
     | some (.jint _) => true
     | _ => false) &&
    (match lookupField f "mood" with
     | some (.jstr m) => moodValues.contains m
     | _ => false) &&
    (match lookupField f "sentiment" with
     | some (.jstr m) => sentimentValues.contains m
     | _ => false) &&
    (match lookupField f "type" with
     | some (.jstr m) => typeValues.contains m
     | _ => false) &&
    (match lookupField f "type_details" with
     | some (.jstr _) => true
     | _ => false)
  | _ => false

/-- A malformed analysis record: its only field is an out-of-enumeration
`mood`, and every required field is missing (concrete data for C5). -/
def badAnalysisRecord : Json := .jobj [("mood", .jstr "bogus")]

end ChunkAnalysis

namespace ChunkScript

open Py

theorem wcSum_append_singleton (g : List (List Char)) (p : List Char) :
    wcSum (g ++ [p]) = wcSum g + wordCount p := by
  simp [wcSum]

theorem wcSum_singleton (p : List Char) : wcSum [p] = wordCount p := by
  simp [wcSum]

/-- The chunk loop is the group loop followed by chunk assembly. -/
theorem chunkLoop_eq_mkChunks (target : Nat) :
    ∀ (ps cur : List (List Char)) (cid : Nat),
      chunkLoop target ps cur (wcSum cur) cid =
        mkChunks cid (chunkGroupsLoop target ps cur) := by
  intro ps
  induction ps with
  | nil =>
    intro cur cid
    rw [chunkLoop, chunkGroupsLoop]
    by_cases h : cur.isEmpty
    · rw [if_pos h, if_pos h, mkChunks]
    · rw [if_neg h, if_neg h, mkChunks, mkChunks]
  | cons p ps ih =>
    intro cur cid
    rw [chunkLoop, chunkGroupsLoop]
    by_cases h : cur.isEmpty
    · rw [if_pos h, if_pos h, ← wcSum_append_singleton, ih]
    · rw [if_neg h, if_neg h]
      by_cases hlt : wcSum cur < target
      · rw [if_pos hlt, if_pos hlt, ← wcSum_append_singleton, ih]
      · rw [if_neg hlt, if_neg hlt, ← wcSum_singleton p, ih, mkChunks]

theorem chunk_paragraphs_eq_mkChunks (ps : List (List Char)) (target : Nat) :
    chunk_paragraphs ps target = mkChunks 0 (chunkGroups ps target) := by
  have h := chunkLoop_eq_mkChunks target ps [] 0
  simpa [chunk_paragraphs, chunkGroups, wcSum] using h

/-- Concatenating the groups in order gives back the input paragraphs. -/
theorem chunkGroupsLoop_flatten (target : Nat) :
    ∀ (ps cur : List (List Char)),
      (chunkGroupsLoop target ps cur).flatten = cur ++ ps := by
  intro ps
  induction ps with
  | nil =>
    intro cur
    rw [chunkGroupsLoop]
    by_cases h : cur.isEmpty
    · rw [if_pos h, List.isEmpty_iff.mp h]
      simp
    · rw [if_neg h]
      simp
  | cons p ps ih =>
    intro cur
    rw [chunkGroupsLoop]
    by_cases h : cur.isEmpty
    · rw [if_pos h, ih]
      simp
    · rw [if_neg h]
      by_cases hlt : wcSum cur < target
      · rw [if_pos hlt, ih]
        simp
      · rw [if_neg hlt]
        simp [ih]

theorem chunkGroups_flatten (ps : List (List Char)) (target : Nat) :
    (chunkGroups ps target).flatten = ps := by
  simpa [chunkGroups] using chunkGroupsLoop_flatten target ps []

/-- Every in-loop closed chunk (every chunk except possibly the last) has
word count at least the target. -/
theorem chunkLoop_nonlast_ge (target : Nat) :
    ∀ (ps cur : List (List Char)) (cnt cid i : Nat),
      i + 1 < (chunkLoop target ps cur cnt cid).length →
      target ≤ ((chunkLoop target ps cur cnt cid).getD i ⟨0, [], 0⟩).word_count := by
  intro ps
  induction ps with
  | nil =>
    intro cur cnt cid i hi
    rw [chunkLoop] at hi
    by_cases h : cur.isEmpty
    · rw [if_pos h] at hi
      simp at hi
    · rw [if_neg h] at hi
      simp at hi
  | cons p ps ih =>
    intro cur cnt cid i hi
    rw [chunkLoop] at hi ⊢
    by_cases h : cur.isEmpty
    · rw [if_pos h] at hi ⊢
      exact ih _ _ _ i hi
    · rw [if_neg h] at hi ⊢
      by_cases hlt : cnt < target
      · rw [if_pos hlt] at hi ⊢
        exact ih _ _ _ i hi
      · rw [if_neg hlt] at hi ⊢
        cases i with
        | zero => simpa using Nat.le_of_not_lt hlt
        | succ j =>
          simp only [List.getD_cons_succ]
          simp only [List.length_cons, Nat.add_lt_add_iff_right] at hi
          exact ih _ _ _ j hi

/-- Chunk ids emitted by the loop are consecutive starting at `cid`. -/
theorem chunkLoop_ids (target : Nat) :
    ∀ (ps cur : List (List Char)) (cnt cid : Nat),
      (chunkLoop target ps cur cnt cid).map (fun c => c.id) =
        List.range' cid (chunkLoop target ps cur cnt cid).length := by
  intro ps
  induction ps with
  | nil =>
    intro cur cnt cid
    rw [chunkLoop]
    by_cases h : cur.isEmpty
    · rw [if_pos h]
      simp [List.range']
    · rw [if_neg h]
      simp [List.range']
  | cons p ps ih =>
    intro cur cnt cid
    rw [chunkLoop]
    by_cases h : cur.isEmpty
    · rw [if_pos h]
      exact ih _ _ _
    · rw [if_neg h]
      by_cases hlt : cnt < target
      · rw [if_pos hlt]
        exact ih _ _ _
      · rw [if_neg hlt]
        simp only [List.map_cons, List.length_cons]
        rw [List.range'_succ, ih]

set_option maxRecDepth 4000 in
/-- C2 (counterexample): on three paragraphs of 100 words each with target
250 the code returns ONE chunk of word count 300, not the two chunks
`[{id:0, word_count:200}, {id:1, word_count:100}]` the claim predicts:
since 200 < 250 the accumulator is still open when the third paragraph
arrives, so it too is appended. -/
theorem c2_undersized_last_counterexample :
    wordCount w100 = 100 ∧
    (chunk_paragraphs [w100, w100, w100] 250).map (fun c => (c.id, c.word_count)) ≠
      [(0, 200), (1, 100)] := by
  constructor
  · decide
  · decide

set_option maxRecDepth 4000 in
/-- C2 (amended): given exactly three paragraphs whose whitespace-delimited
word counts are [100, 100, 100] and target 250, `chunk_paragraphs` returns
exactly one chunk, with id 0 and word_count 300, containing all three
paragraphs: the accumulator closes only once its running count has already
reached the target before a further paragraph arrives, and 100 + 100 = 200
is below 250. -/
theorem c2_undersized_last_amended :
    wordCount w100 = 100 ∧
    (chunk_paragraphs [w100, w100, w100] 250).map (fun c => (c.id, c.word_count)) =
      [(0, 300)] := by
  constructor
  · decide
  · decide

/-- C3: for every paragraph list and positive target, the chunks of
`chunk_paragraphs` are exactly the assembled constituent groups
(`mkChunks` gives each chunk the blank-line join of its group as content
and the sum of its group's word counts as `word_count`), the groups
concatenate back to the input, and every chunk except possibly the last
has `word_count ≥ target`. -/
theorem c3_chunk_invariants (ps : List (List Char)) (target : Nat)
    (_htarget : 0 < target) :
    chunk_paragraphs ps target = mkChunks 0 (chunkGroups ps target) ∧
    (chunkGroups ps target).flatten = ps ∧
    ∀ i : Nat, i + 1 < (chunk_paragraphs ps target).length →
      target ≤ ((chunk_paragraphs ps target).getD i ⟨0, [], 0⟩).word_count := by
  refine ⟨chunk_paragraphs_eq_mkChunks ps target, chunkGroups_flatten ps target, ?_⟩
  intro i hi
  exact chunkLoop_nonlast_ge target ps [] 0 0 i hi

/-- Witness for C3 at a concrete input. -/
theorem c3_chunk_invariants_witness :
    0 < 1 ∧
    (chunk_paragraphs [['a']] 1 = mkChunks 0 (chunkGroups [['a']] 1) ∧
     (chunkGroups [['a']] 1).flatten = [['a']] ∧
     ∀ i : Nat, i + 1 < (chunk_paragraphs [['a']] 1).length →
       1 ≤ ((chunk_paragraphs [['a']] 1).getD i ⟨0, [], 0⟩).word_count) :=
  ⟨Nat.one_pos, c3_chunk_invariants [['a']] 1 Nat.one_pos⟩

/-- C4: for every paragraph list and positive target, the ids of the
returned chunks, in order, are exactly `0, 1, ..., n-1` (`List.range n`
for `n` the number of chunks), and the empty input yields the empty
chunk list. -/
theorem c4_id_contiguity (ps : List (List Char)) (target : Nat)
    (_htarget : 0 < target) :
    (chunk_paragraphs ps target).map (fun c => c.id) =
      List.range (chunk_paragraphs ps target).length ∧
    chunk_paragraphs ([] : List (List Char)) target = [] := by
  constructor
  · rw [List.range_eq_range']
    exact chunkLoop_ids target ps [] 0 0
  · rfl

/-- Witness for C4 at a concrete input. -/
theorem c4_id_contiguity_witness :
    0 < 1 ∧
    ((chunk_paragraphs [['a']] 1).map (fun c => c.id) =
       List.range (chunk_paragraphs [['a']] 1).length ∧
     chunk_paragraphs ([] : List (List Char)) 1 = []) :=
  ⟨Nat.one_pos, c4_id_contiguity [['a']] 1 Nat.one_pos⟩

/-- C6 (counterexample): on the existing filenames `5.txt` and `-5.json`
the sequencer returns -4: the non-`.json` file `5.txt` is skipped
entirely (the claim would parse its stem 5 and return 6), the stem `-5`
parses as a negative integer, and the returned value -4 is negative,
contradicting the claimed non-negativity. -/
theorem c6_next_id_counterexample :
    nextId [['5', '.', 't', 'x', 't'],
            ['-', '5', '.', 'j', 's', 'o', 'n']] = -4 ∧
    (-4 : Int) < 0 ∧ (-4 : Int) ≠ 6 := by
  refine ⟨?_, by decide, by decide⟩
  decide

/-- C6 (amended): the sequencer considers only filenames ending in
`.json`; it parses each such filename's stem with Python `int`, ignoring
unparsable stems, and returns `max(parsed) + 1`, or 0 when no stem
parses.  For existing stems {0, 1, 3, "draft"} it returns 4 and with no
files it returns 0.  The result is non-negative whenever every parsed
stem is non-negative; a negative stem (e.g. `-5.json`) can make it
negative. -/
theorem c6_next_id_amended :
    nextId [] = 0 ∧
    nextId [['0', '.', 'j', 's', 'o', 'n'], ['1', '.', 'j', 's', 'o', 'n'],
            ['3', '.', 'j', 's', 'o', 'n'],
            ['d', 'r', 'a', 'f', 't', '.', 'j', 's', 'o', 'n']] = 4 ∧
    ∀ fns : List (List Char), (∀ n ∈ parsedIds fns, 0 ≤ n) → 0 ≤ nextId fns := by
  refine ⟨by decide, by decide, ?_⟩
  intro fns h
  cases hmax : (parsedIds fns).max? with
  | none => simp [nextId, hmax]
  | some m =>
    have hmem : m ∈ parsedIds fns :=
      List.max?_mem (fun a b => max_choice a b) hmax
    have h0 := h m hmem
    simp only [nextId, hmax]
    omega

/-- Witness for the hypothesis-bearing part of the amended C6. -/
theorem c6_next_id_amended_witness :
    (∀ n ∈ parsedIds [['2', '.', 'j', 's', 'o', 'n']], 0 ≤ n) ∧
    0 ≤ nextId [['2', '.', 'j', 's', 'o', 'n']] :=
  ⟨by decide, c6_next_id_amended.2.2 [['2', '.', 'j', 's', 'o', 'n']] (by decide)⟩

/-- C8: `get_target_chunk_size` agrees with the spec's ordered bucket
table of inclusive upper bounds with default 180, always returns a
positive value, and sends every negative age into the first bucket
(result 150), with no validation. -/
theorem c8_target_size_buckets (age : Int) :
    get_target_chunk_size age = bucketLookup targetBuckets age 180 ∧
    0 < get_target_chunk_size age ∧
    (age < 0 → get_target_chunk_size age = 150) := by
  refine ⟨?_, ?_, ?_⟩
  · simp only [get_target_chunk_size, bucketLookup, targetBuckets]
  · simp only [get_target_chunk_size]
    split_ifs <;> omega
  · intro h
    simp only [get_target_chunk_size]
    rw [if_pos (by omega : age ≤ 12)]

/-- Witness for C8 at a concrete negative age. -/
theorem c8_target_size_buckets_witness :
    (-3 : Int) < 0 ∧
    (get_target_chunk_size (-3) = bucketLookup targetBuckets (-3) 180 ∧
     0 < get_target_chunk_size (-3) ∧ get_target_chunk_size (-3) = 150) :=
  ⟨by decide, (c8_target_size_buckets (-3)).1, (c8_target_size_buckets (-3)).2.1,
   (c8_target_size_buckets (-3)).2.2 (by decide)⟩

end ChunkScript

namespace ChunkAnalysis

/-- If the record comprehension raises `ValidationError` at index `i` with
item `j`, then `j` really is the `i`-th item, it is a JSON object whose
fields fail validation, and every earlier item was accepted; the error
describes only this first failure. -/
theorem buildRecords_error_spec :
    ∀ (items : List Json) (n i : Nat) (j : Json),
      buildRecords n items = .error (.validationError i j) →
      n ≤ i ∧ items[i - n]? = some j ∧
      ∃ fields, j = .jobj fields ∧ validateItem fields = none := by
  intro items
  induction items with
  | nil =>
    intro n i j h
    simp [buildRecords] at h
  | cons x rest ih =>
    intro n i j h
    cases x with
    | jobj fields =>
      cases hv : validateItem fields with
      | some r =>
        simp only [buildRecords, hv] at h
        cases hb : buildRecords (n + 1) rest with
        | ok rs => rw [hb] at h; simp [Except.map] at h
        | error e =>
          rw [hb] at h
          simp only [Except.map] at h
          injection h with he
          subst he
          obtain ⟨hni, hget, hf⟩ := ih (n + 1) i j hb
          refine ⟨by omega, ?_, hf⟩
          have hin : i - n = (i - (n + 1)) + 1 := by omega
          rw [hin]
          simpa using hget
      | none =>
        simp only [buildRecords, hv] at h
        injection h with he
        injection he with h1 h2
        subst h1
        subst h2
        exact ⟨Nat.le_refl _, by simp, fields, rfl, hv⟩
    | jnull => simp [buildRecords] at h
    | jbool b => simp [buildRecords] at h
    | jint k => simp [buildRecords] at h
    | jstr s => simp [buildRecords] at h
    | jarr xs => simp [buildRecords] at h

/-- If every item yields a record, the number of records equals the
number of items. -/
theorem buildRecords_ok_length :
    ∀ (items : List Json) (n : Nat) (rs : List ParagraphChunk),
      buildRecords n items = .ok rs → rs.length = items.length := by
  intro items
  induction items with
  | nil =>
    intro n rs h
    simp [buildRecords] at h
    simp [← h]
  | cons x rest ih =>
    intro n rs h
    cases x with
    | jobj fields =>
      cases hv : validateItem fields with
      | some r =>
        simp only [buildRecords, hv] at h
        cases hb : buildRecords (n + 1) rest with
        | ok rs' =>
          rw [hb] at h
          simp only [Except.map] at h
          injection h with he
          subst he
          simp [ih (n + 1) rs' hb]
        | error e => rw [hb] at h; simp [Except.map] at h
      | none => simp only [buildRecords, hv] at h; cases h
    | jnull => simp [buildRecords] at h
    | jbool b => simp [buildRecords] at h
    | jint k => simp [buildRecords] at h
    | jstr s => simp [buildRecords] at h
    | jarr xs => simp [buildRecords] at h

/-- C5 (counterexample): a response whose single record has an
out-of-enumeration `mood` and lacks every required field is returned
verbatim by the response handler — the result is the non-empty list
containing the malformed record, not the empty result the claim
requires, so no outbound enumeration check exists. -/
theorem c5_outbound_validation_counterexample :
    extractAnalysisResults
        (some (.jobj [("analysis_results", .jarr [badAnalysisRecord])])) =
      .jarr [badAnalysisRecord] ∧
    validAnalysisRecord badAnalysisRecord = false ∧
    Json.jarr [badAnalysisRecord] ≠ Json.jarr [] := by
  refine ⟨rfl, rfl, ?_⟩
  intro h
  simp at h

/-- C5 (amended): the analysis stage requests schema conformance from the
external service but performs no local validation of the decoded
response: whatever value sits under the `analysis_results` key is
returned unchanged, malformed records included (and is then persisted
verbatim by `save_analysis_result`).  An empty result arises only when
the call or JSON decoding raises, the decoded response is not an object,
or the key is absent. -/
theorem c5_outbound_no_validation (xs : List Json) :
    extractAnalysisResults (some (.jobj [("analysis_results", .jarr xs)])) =
      .jarr xs ∧
    extractAnalysisResults none = .jarr [] ∧
    extractAnalysisResults (some (.jobj [])) = .jarr [] := by
  refine ⟨?_, rfl, rfl⟩
  rfl

/-- C7 (counterexample): on a batch with two invalid elements the raised
`ValidationError` carries (and the code prints) only the first failing
element, index 0, even though the element at index 1 is also invalid —
the comprehension stops at the first failure, so the diagnostic does not
describe every failing element. -/
theorem c7_fail_closed_counterexample :
    buildRecords 0
        [Json.jobj [("id", Json.jstr "bad")], Json.jobj [("id", Json.jstr "worse")]] =
      .error (.validationError 0 (Json.jobj [("id", Json.jstr "bad")])) ∧
    validateItem [("id", Json.jstr "worse")] = none := by
  constructor
  · rfl
  · rfl

/-- C7 (amended): if any element of the decoded batch fails the
`{id: integer, content: string}` schema, the whole batch is rejected —
`load_chunks_from_file` returns the empty list with no partial
acceptance — and the accompanying diagnostic describes the first failing
element (validation stops at the first failure); unknown extra fields on
an element are ignored and are not errors. -/
theorem c7_validator_fail_closed :
    (∀ (items : List Json) (i : Nat) (j : Json),
      buildRecords 0 items = .error (.validationError i j) →
      load_chunks_from_file true (some (.jarr items)) = .ok [] ∧
      items[i]? = some j ∧
      ∃ fields, j = .jobj fields ∧ validateItem fields = none) ∧
    validateItem
        [("id", .jint 1), ("content", .jstr "x"), ("word_count", .jint 5)] =
      some ⟨1, "x"⟩ := by
  constructor
  · intro items i j h
    refine ⟨?_, ?_, ?_⟩
    · simp [load_chunks_from_file, pyIter, h]
    · have := (buildRecords_error_spec items 0 i j h).2.1
      simpa using this
    · exact (buildRecords_error_spec items 0 i j h).2.2
  · rfl

/-- Witness for C7 at a concrete invalid batch. -/
theorem c7_validator_fail_closed_witness :
    buildRecords 0 [Json.jobj []] = .error (.validationError 0 (Json.jobj [])) ∧
    (load_chunks_from_file true (some (.jarr [Json.jobj []])) = .ok [] ∧
     [Json.jobj []][0]? = some (Json.jobj []) ∧
     ∃ fields, Json.jobj [] = Json.jobj fields ∧ validateItem fields = none) :=
  ⟨rfl, c7_validator_fail_closed.1 [Json.jobj []] 0 (Json.jobj []) rfl⟩

/-- C10: when the input file exists but its content is not valid JSON,
`load_chunks_from_file` propagates the uncaught `JSONDecodeError`
instead of returning the empty list; the empty-list returns happen for a
missing file, for a batch with a validating-failing element (fail-closed
path), and — the only further possibility on an existing file — for a
decoded value with no elements at all. -/
theorem c10_decode_error_propagates :
    load_chunks_from_file true none = .error .jsonDecode ∧
    (.error .jsonDecode : Except PyExc (List ParagraphChunk)) ≠ .ok [] ∧
    (∀ d : Option Json, load_chunks_from_file false d = .ok []) ∧
    (∀ (items : List Json) (i : Nat) (j : Json),
      buildRecords 0 items = .error (.validationError i j) →
      load_chunks_from_file true (some (.jarr items)) = .ok []) ∧
    (∀ d : Option Json, load_chunks_from_file true d = .ok [] →
      ∃ v items, d = some v ∧ pyIter v = some items ∧
        (items = [] ∨
         ∃ (i : Nat) (j : Json),
           buildRecords 0 items = .error (.validationError i j))) := by
  refine ⟨rfl, by simp, fun d => rfl, ?_, ?_⟩
  · intro items i j h
    simp [load_chunks_from_file, pyIter, h]
  · intro d h
    cases d with
    | none => simp [load_chunks_from_file] at h
    | some v =>
      refine ⟨v, ?_⟩
      cases hpi : pyIter v with
      | none => simp [load_chunks_from_file, hpi] at h
      | some items =>
        refine ⟨items, rfl, rfl, ?_⟩
        cases hb : buildRecords 0 items with
        | ok rs =>
          left
          simp only [load_chunks_from_file, hpi, hb, Bool.not_true, if_false] at h
          injection h with he
          subst he
          have hlen := buildRecords_ok_length items 0 [] hb
          have h0 : items.length = 0 := by simpa using hlen.symm
          exact List.length_eq_zero.mp h0
        | error e =>
          cases e with
          | jsonDecode => simp [load_chunks_from_file, hpi, hb] at h
          | notIterable => simp [load_chunks_from_file, hpi, hb] at h
          | typeErr i j => simp [load_chunks_from_file, hpi, hb] at h
          | validationError i j => exact Or.inr ⟨i, j, rfl⟩

/-- Witness for C10 at concrete inputs discharging both hypotheses. -/
theorem c10_decode_error_propagates_witness :
    buildRecords 0 [Json.jobj [("id", Json.jbool true)]] =
      .error (.validationError 0 (Json.jobj [("id", Json.jbool true)])) ∧
    load_chunks_from_file true (some (.jarr [Json.jobj [("id", Json.jbool true)]])) =
      .ok [] ∧
    load_chunks_from_file true (some (.jarr [])) = .ok [] ∧
    (∃ v items, (some (Json.jarr []) : Option Json) = some v ∧
      pyIter v = some items ∧
      (items = [] ∨
       ∃ (i : Nat) (j : Json),
         buildRecords 0 items = .error (.validationError i j))) :=
  ⟨rfl,
   c10_decode_error_propagates.2.2.2.1 [Json.jobj [("id", Json.jbool true)]] 0
     (Json.jobj [("id", Json.jbool true)]) rfl,
   rfl,
   c10_decode_error_propagates.2.2.2.2 (some (Json.jarr [])) rfl⟩

end ChunkAnalysis

namespace ChunkScript

open Py

theorem hasDD_cons_of (c : Char) {l : List Char} (h : hasDD l = true) :
    hasDD (c :: l) = true := by
  cases l with
  | nil => simp [hasDD] at h
  | cons a t =>
    rw [hasDD, h]
    simp

theorem hasDD_append_right (x : List Char) {y : List Char} (h : hasDD y = true) :
    hasDD (x ++ y) = true := by
  induction x with
  | nil => simpa
  | cons c t ih =>
    simp only [List.cons_append]
    exact hasDD_cons_of c ih

theorem hasDD_append_left (y : List Char) :
    ∀ x : List Char, hasDD x = true → hasDD (x ++ y) = true := by
  intro x
  induction x using hasDD.induct with
  | case1 => intro h; simp [hasDD] at h
  | case2 c => intro h; simp [hasDD] at h
  | case3 a b rest ih =>
    intro h
    rw [hasDD] at h
    rcases Bool.or_eq_true_iff.mp h with hab | htl
    · simp only [List.cons_append]
      rw [hasDD, hab]
      simp
    · simp only [List.cons_append]
      rw [hasDD]
      have := ih htl
      simp only [List.cons_append] at this
      rw [this]
      simp

/-- Any list splits as its right-strip followed by trailing whitespace. -/
theorem rstrip_decomp (y : List Char) :
    y = rstrip y ++ (y.reverse.takeWhile pyIsSpace).reverse := by
  have h : y.reverse.takeWhile pyIsSpace ++ y.reverse.dropWhile pyIsSpace = y.reverse :=
    List.takeWhile_append_dropWhile pyIsSpace y.reverse
  calc y = y.reverse.reverse := (List.reverse_reverse y).symm
    _ = (y.reverse.takeWhile pyIsSpace ++ y.reverse.dropWhile pyIsSpace).reverse := by
        rw [h]
    _ = rstrip y ++ (y.reverse.takeWhile pyIsSpace).reverse := by
        rw [List.reverse_append, rstrip]

theorem hasDD_pyStrip (l : List Char) (h : hasDD l = false) :
    hasDD (pyStrip l) = false := by
  by_contra hc
  have h1 : hasDD (pyStrip l) = true := by simpa using hc
  have h2 : hasDD (lstrip l) = true := by
    rw [rstrip_decomp (lstrip l)]
    exact hasDD_append_left _ _ h1
  have h3 : hasDD l = true := by
    have hsplit : l.takeWhile pyIsSpace ++ l.dropWhile pyIsSpace = l :=
      List.takeWhile_append_dropWhile pyIsSpace l
    rw [← hsplit]
    exact hasDD_append_right _ h2
  rw [h3] at h
  cases h

theorem dropWhile_head_not (p : Char → Bool) :
    ∀ (l : List Char) (c : Char) (t : List Char),
      l.dropWhile p = c :: t → p c = false := by
  intro l
  induction l with
  | nil => intro c t h; simp at h
  | cons a rest ih =>
    intro c t h
    by_cases hpa : p a = true
    · rw [List.dropWhile_cons, if_pos hpa] at h
      exact ih c t h
    · rw [List.dropWhile_cons, if_neg hpa] at h
      cases h
      simpa using hpa

theorem pyStrip_head_not_space (l : List Char) (c : Char) (t : List Char)
    (h : pyStrip l = c :: t) : pyIsSpace c = false := by
  have h2 : lstrip l = (c :: t) ++ ((lstrip l).reverse.takeWhile pyIsSpace).reverse := by
    rw [← h, pyStrip]
    exact rstrip_decomp (lstrip l)
  rw [lstrip] at h2
  simp only [List.cons_append] at h2
  exact dropWhile_head_not pyIsSpace l c _ h2

theorem pyStrip_getLast_not_space (l : List Char) (c : Char)
    (h : (pyStrip l).getLast? = some c) : pyIsSpace c = false := by
  rw [pyStrip, rstrip, List.getLast?_reverse] at h
  cases hd : (lstrip l).reverse.dropWhile pyIsSpace with
  | nil => rw [hd] at h; simp at h
  | cons a tl =>
    rw [hd] at h
    simp only [List.head?_cons, Option.some.injEq] at h
    subst h
    exact dropWhile_head_not pyIsSpace _ _ _ hd

/-- If the remaining input starts with a newline, the separator scan at a
newline fires. -/
theorem lastNlIdx_of_head_nl (rest : List Char) (r : List Char)
    (h : rest = '\n' :: r) :
    lastNlIdx (rest.takeWhile pyIsSpace) ≠ none := by
  subst h
  rw [List.takeWhile_cons, if_pos (by simp [pyIsSpace])]
  rw [lastNlIdx]
  cases lastNlIdx (r.takeWhile pyIsSpace) <;> simp

theorem hasDD_append_singleton (c : Char) :
    ∀ l : List Char,
      hasDD (l ++ [c]) = true ↔
        (hasDD l = true ∨ (l.getLast? = some '\n' ∧ c = '\n')) := by
  intro l
  induction l using hasDD.induct with
  | case1 => simp [hasDD]
  | case2 a => simp [hasDD]
  | case3 a b rest ih =>
    simp only [List.cons_append] at ih ⊢
    rw [hasDD, hasDD, List.getLast?_cons_cons, Bool.or_eq_true, Bool.or_eq_true, ih]
    tauto

/-- No piece produced by the separator scan contains two adjacent
newlines: a `'\n'` is appended to the current piece only when the next
character is not a `'\n'`. -/
theorem reSplitAux_no_dd :
    ∀ (n : Nat) (s acc : List Char), s.length ≤ n →
      hasDD acc = false →
      (acc.getLast? = some '\n' → s.head? ≠ some '\n') →
      ∀ q ∈ reSplitAux s acc, hasDD q = false := by
  intro n
  induction n with
  | zero =>
    intro s acc hlen h1 h2 q hq
    cases s with
    | cons c r => simp at hlen
    | nil =>
      rw [reSplitAux] at hq
      simp only [List.mem_singleton] at hq
      rwa [hq]
  | succ n ih =>
    intro s acc hlen h1 h2 q hq
    cases s with
    | nil =>
      rw [reSplitAux] at hq
      simp only [List.mem_singleton] at hq
      rwa [hq]
    | cons c rest =>
      simp only [List.length_cons, Nat.add_le_add_iff_right] at hlen
      by_cases hc : c = '\n'
      · rw [reSplitAux, if_pos hc] at hq
        cases hk : lastNlIdx (rest.takeWhile pyIsSpace) with
        | some k =>
          rw [hk] at hq
          rcases List.mem_cons.mp hq with rfl | hq'
          · exact h1
          · refine ih (rest.drop (k + 1)) [] ?_ rfl ?_ q hq'
            · simp only [List.length_drop]
              omega
            · intro hl
              simp at hl
        | none =>
          rw [hk] at hq
          refine ih rest (acc ++ [c]) hlen ?_ ?_ q hq
          · rw [← Bool.not_eq_true]
            intro hdd
            rcases (hasDD_append_singleton c acc).mp hdd with hl | ⟨hlast, _⟩
            · rw [hl] at h1; cases h1
            · exact (h2 hlast) (by simp [hc])
          · intro _ hhead
            cases rest with
            | nil => simp at hhead
            | cons a r =>
              simp only [List.head?_cons, Option.some.injEq] at hhead
              exact (lastNlIdx_of_head_nl (a :: r) r (by rw [hhead])) hk
      · rw [reSplitAux, if_neg hc] at hq
        refine ih rest (acc ++ [c]) hlen ?_ ?_ q hq
        · rw [← Bool.not_eq_true]
          intro hdd
          rcases (hasDD_append_singleton c acc).mp hdd with hl | ⟨_, hcnl⟩
          · rw [hl] at h1; cases h1
          · exact hc hcnl
        · rw [List.getLast?_concat]
          intro hlast
          exact absurd (Option.some.inj hlast) hc

theorem reSplit_no_dd (s : List Char) : ∀ q ∈ reSplit s, hasDD q = false := by
  intro q hq
  refine reSplitAux_no_dd s.length s [] (Nat.le_refl _) rfl ?_ q hq
  intro h
  simp at h

/-- Every paragraph produced by segmentation is free of internal blank
lines (no two adjacent newlines) and does not end in a newline. -/
theorem split_into_paragraphs_mem (text : List Char) (p : List Char)
    (hp : p ∈ split_into_paragraphs text) :
    hasDD p = false ∧ p.getLast? ≠ some '\n' := by
  rw [split_into_paragraphs, filterStrip] at hp
  rw [List.mem_filter] at hp
  obtain ⟨hmem, hne⟩ := hp
  rw [List.mem_map] at hmem
  obtain ⟨q, hq, rfl⟩ := hmem
  refine ⟨hasDD_pyStrip q (reSplit_no_dd text q hq), ?_⟩
  intro hlast
  have := pyStrip_getLast_not_space q '\n' hlast
  simp [pyIsSpace] at this

theorem joinDD_cons (p : List Char) {ps : List (List Char)} (h : ps ≠ []) :
    joinDD (p :: ps) = p ++ '\n' :: '\n' :: joinDD ps := by
  cases ps with
  | nil => exact absurd rfl h
  | cons q qs => rfl

theorem splitOnDD_no_sep : ∀ p : List Char, hasDD p = false → splitOnDD p = [p] := by
  intro p
  induction p using hasDD.induct with
  | case1 => intro _; rfl
  | case2 c => intro _; rfl
  | case3 a b rest ih =>
    intro h
    rw [hasDD, Bool.or_eq_false_iff] at h
    rw [splitOnDD, if_neg ?hneg, ih h.2]
    · rfl
    case hneg =>
      intro hab
      have : (decide (a = '\n') && decide (b = '\n')) = true := by
        simp [hab.1, hab.2]
      rw [this] at h
      exact absurd h.1 (by simp)

theorem splitOnDD_sep :
    ∀ p : List Char, hasDD p = false → p.getLast? ≠ some '\n' →
      ∀ rest : List Char,
        splitOnDD (p ++ '\n' :: '\n' :: rest) = p :: splitOnDD rest := by
  intro p
  induction p using hasDD.induct with
  | case1 =>
    intro _ _ rest
    rw [List.nil_append, splitOnDD, if_pos ⟨rfl, rfl⟩]
  | case2 c =>
    intro _ hl rest
    have hc : c ≠ '\n' := by simpa using hl
    simp only [List.cons_append, List.nil_append]
    rw [splitOnDD, if_neg (fun hh => hc hh.1),
      splitOnDD, if_pos ⟨rfl, rfl⟩]
    rfl
  | case3 a b rest' ih =>
    intro h hl rest
    rw [hasDD, Bool.or_eq_false_iff] at h
    have hlast : (b :: rest').getLast? ≠ some '\n' := by
      rwa [List.getLast?_cons_cons] at hl
    simp only [List.cons_append]
    rw [splitOnDD, if_neg ?hneg]
    · have := ih h.2 hlast rest
      simp only [List.cons_append] at this
      rw [this]
      rfl
    case hneg =>
      intro hab
      have : (decide (a = '\n') && decide (b = '\n')) = true := by
        simp [hab.1, hab.2]
      rw [this] at h
      exact absurd h.1 (by simp)

theorem splitOnDD_joinDD :
    ∀ g : List (List Char), g ≠ [] →
      (∀ p ∈ g, hasDD p = false ∧ p.getLast? ≠ some '\n') →
      splitOnDD (joinDD g) = g := by
  intro g
  induction g with
  | nil => intro h _; exact absurd rfl h
  | cons p g' ih =>
    intro _ hprops
    cases g' with
    | nil =>
      have hp := hprops p (by simp)
      have : joinDD [p] = p := rfl
      rw [this, splitOnDD_no_sep p hp.1]
    | cons q qs =>
      rw [joinDD_cons p (by simp)]
      obtain ⟨h1, h2⟩ := hprops p (by simp)
      rw [splitOnDD_sep p h1 h2]
      rw [ih (by simp) (fun r hr => hprops r (by simp [hr]))]

theorem chunkGroupsLoop_mem_ne_nil (target : Nat) :
    ∀ (ps cur : List (List Char)), ∀ g ∈ chunkGroupsLoop target ps cur, g ≠ [] := by
  intro ps
  induction ps with
  | nil =>
    intro cur g hg
    rw [chunkGroupsLoop] at hg
    by_cases h : cur.isEmpty
    · rw [if_pos h] at hg
      simp at hg
    · rw [if_neg h] at hg
      simp only [List.mem_singleton] at hg
      subst hg
      intro hc
      exact h (by simp [hc])
  | cons p ps ih =>
    intro cur g hg
    rw [chunkGroupsLoop] at hg
    by_cases h : cur.isEmpty
    · rw [if_pos h] at hg
      exact ih _ g hg
    · rw [if_neg h] at hg
      by_cases hlt : wcSum cur < target
      · rw [if_pos hlt] at hg
        exact ih _ g hg
      · rw [if_neg hlt] at hg
        rcases List.mem_cons.mp hg with rfl | hg'
        · intro hc
          exact h (by simp [hc])
        · exact ih _ g hg'

theorem mkChunks_map_content (f : List Char → List (List Char)) :
    ∀ (cid : Nat) (gs : List (List (List Char))),
      (mkChunks cid gs).map (fun c => f c.content) =
        gs.map (fun g => f (joinDD g)) := by
  intro cid gs
  induction gs generalizing cid with
  | nil => rfl
  | cons g gs ih => simp [mkChunks, ih]

/-- C1: for every input text and every target, splitting every chunk's
content back on the blank-line separator and concatenating the results
in order reproduces exactly the paragraph sequence produced by
`split_into_paragraphs`; in particular no paragraph's text is divided
between two chunks. -/
theorem c1_paragraph_preservation (text : List Char) (target : Nat) :
    ((chunk_paragraphs (split_into_paragraphs text) target).map
        (fun c => splitOnDD c.content)).flatten = split_into_paragraphs text := by
  rw [chunk_paragraphs_eq_mkChunks, mkChunks_map_content]
  have hmap : (chunkGroups (split_into_paragraphs text) target).map
      (fun g => splitOnDD (joinDD g)) =
      (chunkGroups (split_into_paragraphs text) target).map (fun g => g) := by
    apply List.map_congr_left
    intro g hg
    apply splitOnDD_joinDD
    · exact chunkGroupsLoop_mem_ne_nil target (split_into_paragraphs text) [] g hg
    · intro p hp
      have hpin : p ∈ split_into_paragraphs text := by
        have hfl : p ∈ (chunkGroups (split_into_paragraphs text) target).flatten :=
          List.mem_flatten_of_mem hg hp
        rwa [chunkGroups_flatten] at hfl
      exact split_into_paragraphs_mem text p hpin
  rw [hmap, List.map_id', chunkGroups_flatten]

end ChunkScript

namespace ChunkScript

open Py

theorem consPre_ne_nil (a : List Char) (ps : List (List Char)) :
    consPre a ps ≠ [] := by
  cases ps <;> simp [consPre]

theorem splitNl_ne_nil (s : List Char) : splitNl s ≠ [] := by
  cases s with
  | nil => simp [splitNl]
  | cons c rest =>
    rw [splitNl]
    by_cases h : c = '\n'
    · rw [if_pos h]; simp
    · rw [if_neg h]
      cases hs : splitNl rest <;> simp [consHead]

theorem linePieces_ne_nil (ls : List (List Char)) : linePieces ls ≠ [] := by
  cases ls with
  | nil => simp [linePieces]
  | cons l ms =>
    cases ms with
    | nil => simp [linePieces]
    | cons m ms' =>
      rw [linePieces]
      by_cases h : isBlankLine m = true ∧ ms' ≠ []
      · rw [if_pos h]; simp
      · rw [if_neg h]; exact consPre_ne_nil _ _

/-- Generic drop over an append with an offset. -/
theorem drop_append_len {α : Type} :
    ∀ (a b : List α) (j : Nat), (a ++ b).drop (a.length + j) = b.drop j := by
  intro a
  induction a with
  | nil => intro b j; simp
  | cons x xs ih =>
    intro b j
    simp only [List.cons_append, List.length_cons]
    have : xs.length + 1 + j = (xs.length + j) + 1 := by omega
    rw [this, List.drop_succ_cons, ih]

/-- The piece accumulated so far is prefixed onto the first piece of the
remaining scan. -/
theorem reSplitAux_acc :
    ∀ (n : Nat) (s acc : List Char), s.length ≤ n →
      reSplitAux s acc = consPre acc (reSplitAux s []) := by
  intro n
  induction n with
  | zero =>
    intro s acc hlen
    cases s with
    | cons c r => simp at hlen
    | nil => simp [reSplitAux, consPre]
  | succ n ih =>
    intro s acc hlen
    cases s with
    | nil => simp [reSplitAux, consPre]
    | cons c rest =>
      simp only [List.length_cons, Nat.add_le_add_iff_right] at hlen
      by_cases hc : c = '\n'
      · rw [reSplitAux, reSplitAux, if_pos hc, if_pos hc]
        cases hk : lastNlIdx (rest.takeWhile pyIsSpace) with
        | some k => simp [consPre]
        | none =>
          rw [ih rest (acc ++ [c]) hlen, ih rest ([] ++ [c]) hlen]
          cases hrs : reSplitAux rest [] with
          | nil => simp [consPre]
          | cons p ps => simp [consPre]
      · rw [reSplitAux, reSplitAux, if_neg hc, if_neg hc]
        rw [ih rest (acc ++ [c]) hlen, ih rest ([] ++ [c]) hlen]
        cases hrs : reSplitAux rest [] with
        | nil => simp [consPre]
        | cons p ps => simp [consPre]

/-- Characters other than `'\n'` are simply accumulated by the scan. -/
theorem reSplitAux_chars :
    ∀ (l s acc : List Char), (∀ c ∈ l, c ≠ '\n') →
      reSplitAux (l ++ s) acc = reSplitAux s (acc ++ l) := by
  intro l
  induction l with
  | nil => intro s acc _; simp
  | cons c l' ih =>
    intro s acc hnl
    have hc : c ≠ '\n' := hnl c (by simp)
    simp only [List.cons_append]
    rw [reSplitAux, if_neg hc, ih s (acc ++ [c]) (fun d hd => hnl d (by simp [hd]))]
    simp

theorem splitNl_no_nl :
    ∀ l : List Char, (∀ c ∈ l, c ≠ '\n') → splitNl l = [l] := by
  intro l
  induction l with
  | nil => intro _; rfl
  | cons c l' ih =>
    intro hnl
    rw [splitNl, if_neg (hnl c (by simp)), ih (fun d hd => hnl d (by simp [hd]))]
    rfl

theorem splitNl_chars :
    ∀ (l t : List Char), (∀ c ∈ l, c ≠ '\n') →
      splitNl (l ++ '\n' :: t) = l :: splitNl t := by
  intro l
  induction l with
  | nil =>
    intro t _
    simp only [List.nil_append]
    rw [splitNl, if_pos rfl]
  | cons c l' ih =>
    intro t hnl
    simp only [List.cons_append]
    rw [splitNl, if_neg (hnl c (by simp)), ih t (fun d hd => hnl d (by simp [hd]))]
    rfl

/-- Every character list is either newline-free or splits at its first
newline. -/
theorem line_decomp (s : List Char) :
    (∀ c ∈ s, c ≠ '\n') ∨
      ∃ l t, s = l ++ '\n' :: t ∧ (∀ c ∈ l, c ≠ '\n') := by
  induction s with
  | nil => exact Or.inl (by simp)
  | cons c rest ih =>
    by_cases hc : c = '\n'
    · subst hc
      exact Or.inr ⟨[], rest, by simp⟩
    · rcases ih with hnl | ⟨l, t, rfl, hl⟩
      · exact Or.inl (by
          intro d hd
          rcases List.mem_cons.mp hd with rfl | hd'
          · exact hc
          · exact hnl d hd')
      · refine Or.inr ⟨c :: l, t, by simp, ?_⟩
        intro d hd
        rcases List.mem_cons.mp hd with rfl | hd'
        · exact hc
        · exact hl d hd'

theorem lastNlIdx_none_iff :
    ∀ l : List Char, lastNlIdx l = none ↔ ∀ c ∈ l, c ≠ '\n' := by
  intro l
  induction l with
  | nil => simp [lastNlIdx]
  | cons c rest ih =>
    rw [lastNlIdx]
    cases hr : lastNlIdx rest with
    | some k =>
      simp only []
      constructor
      · intro h; cases h
      · intro h
        have := (ih.mpr (fun d hd => h d (by simp [hd])))
        rw [hr] at this
        cases this
    | none =>
      by_cases hc : c = '\n'
      · rw [if_pos hc]
        constructor
        · intro h; cases h
        · intro h; exact absurd hc (h c (by simp))
      · rw [if_neg hc]
        constructor
        · intro _ d hd
          rcases List.mem_cons.mp hd with rfl | hd'
          · exact hc
          · exact (ih.mp hr) d hd'
        · intro _; rfl

theorem lastNlIdx_append_of_some :
    ∀ (m b : List Char) (k : Nat), lastNlIdx b = some k →
      lastNlIdx (m ++ b) = some (m.length + k) := by
  intro m
  induction m with
  | nil => intro b k h; simpa using h
  | cons c m' ih =>
    intro b k h
    simp only [List.cons_append]
    rw [lastNlIdx, ih b k h]
    simp only [List.length_cons]
    congr 1
    omega

theorem lastNlIdx_cons_nl (w : List Char) :
    lastNlIdx ('\n' :: w) =
      some (match lastNlIdx w with | some k => k + 1 | none => 0) := by
  rw [lastNlIdx]
  cases hw : lastNlIdx w with
  | some k => rfl
  | none => rw [if_pos rfl]

end ChunkScript

namespace ChunkScript

open Py

theorem takeWhile_ws_blank (m u : List Char) (hm : isBlankLine m = true) :
    (m ++ '\n' :: u).takeWhile pyIsSpace = m ++ '\n' :: u.takeWhile pyIsSpace := by
  rw [List.takeWhile_append_of_pos]
  · rw [List.takeWhile_cons, if_pos (by simp [pyIsSpace])]
  · intro a ha
    rw [isBlankLine] at hm
    exact List.all_eq_true.mp hm a ha

theorem takeWhile_ws_nonblank (m b : List Char) (hm : isBlankLine m = false) :
    (m ++ b).takeWhile pyIsSpace = m.takeWhile pyIsSpace := by
  induction m with
  | nil => simp [isBlankLine] at hm
  | cons c m' ih =>
    rw [isBlankLine, List.all_cons] at hm
    by_cases hc : pyIsSpace c = true
    · rw [hc] at hm
      simp only [Bool.true_and] at hm
      have hm' : isBlankLine m' = false := hm
      simp only [List.cons_append]
      rw [List.takeWhile_cons, List.takeWhile_cons, if_pos hc, if_pos hc, ih hm']
    · simp only [List.cons_append]
      rw [List.takeWhile_cons, List.takeWhile_cons, if_neg hc, if_neg hc]

theorem dropBlanksKL_cons_blank (m : List Char) {ms : List (List Char)}
    (hm : isBlankLine m = true) (hne : ms ≠ []) :
    dropBlanksKL (m :: ms) = dropBlanksKL ms := by
  cases ms with
  | nil => exact absurd rfl hne
  | cons mm ms' => rw [dropBlanksKL, if_pos hm]

theorem dropBlanksKL_cons_nonblank (m : List Char) (ms : List (List Char))
    (hm : isBlankLine m = false) :
    dropBlanksKL (m :: ms) = m :: ms := by
  cases ms with
  | nil => rfl
  | cons mm ms' =>
    rw [dropBlanksKL, if_neg (by rw [hm]; intro h; cases h)]

theorem dropBlanksKL_id_of_none (u : List Char)
    (hk : lastNlIdx (u.takeWhile pyIsSpace) = none) :
    dropBlanksKL (splitNl u) = splitNl u := by
  rcases line_decomp u with hnl | ⟨p, v, rfl, hp⟩
  · rw [splitNl_no_nl u hnl]
    rfl
  · by_cases hbp : isBlankLine p = true
    · exfalso
      rw [takeWhile_ws_blank p v hbp] at hk
      have hsome := lastNlIdx_append_of_some p _ _ (lastNlIdx_cons_nl (v.takeWhile pyIsSpace))
      rw [hsome] at hk
      cases hk
    · rw [splitNl_chars p v hp]
      exact dropBlanksKL_cons_nonblank p _ (by simpa using hbp)

theorem reSplitAux_cons_nl_some (t acc : List Char) (k : Nat)
    (hk : lastNlIdx (t.takeWhile pyIsSpace) = some k) :
    reSplitAux ('\n' :: t) acc = acc :: reSplitAux (t.drop (k + 1)) [] := by
  rw [reSplitAux, if_pos rfl, hk]

theorem reSplitAux_cons_nl_none (t acc : List Char)
    (hk : lastNlIdx (t.takeWhile pyIsSpace) = none) :
    reSplitAux ('\n' :: t) acc = reSplitAux t (acc ++ ['\n']) := by
  rw [reSplitAux, if_pos rfl, hk]

/-- The regex scan agrees with the line-level view: pieces are delimited
exactly at blank, newline-terminated lines (first component), and after a
separator match the scan resumes at the first line kept by
`dropBlanksKL` (second component). -/
theorem reSplit_linePieces_main :
    ∀ n : Nat, ∀ s : List Char, s.length ≤ n →
      (reSplit s = linePieces (splitNl s)) ∧
      (∀ k, lastNlIdx (s.takeWhile pyIsSpace) = some k →
        reSplit (s.drop (k + 1)) = linePieces (dropBlanksKL (splitNl s))) := by
  intro n
  induction n with
  | zero =>
    intro s hlen
    cases s with
    | cons c r => simp at hlen
    | nil =>
      constructor
      · rw [reSplit, reSplitAux]
        simp [splitNl, linePieces]
      · intro k hk
        simp [lastNlIdx] at hk
  | succ n ih =>
    intro s hlen
    constructor
    · rcases line_decomp s with hnl | ⟨l, t, rfl, hl⟩
      · have h1 : reSplit s = [s] := by
          rw [reSplit]
          have h2 := reSplitAux_chars s [] [] hnl
          simpa [reSplitAux] using h2
        rw [h1, splitNl_no_nl s hnl]
        simp [linePieces]
      · have htlen : t.length ≤ n := by
          simp only [List.length_append, List.length_cons] at hlen
          omega
        have hstep : reSplit (l ++ '\n' :: t) = reSplitAux ('\n' :: t) l := by
          rw [reSplit]
          have h2 := reSplitAux_chars l ('\n' :: t) [] hl
          simpa using h2
        rw [hstep, splitNl_chars l t hl]
        cases hk : lastNlIdx (t.takeWhile pyIsSpace) with
        | some k =>
          rw [reSplitAux_cons_nl_some t l k hk]
          rcases line_decomp t with hnlt | ⟨m, u, hteq, hm⟩
          · exfalso
            have hnone : lastNlIdx (t.takeWhile pyIsSpace) = none := by
              rw [lastNlIdx_none_iff]
              intro c hc
              exact hnlt c ((List.takeWhile_sublist _).subset hc)
            rw [hnone] at hk
            cases hk
          · by_cases hbm : isBlankLine m = true
            · have hsp : splitNl t = m :: splitNl u := by
                rw [hteq]
                exact splitNl_chars m u hm
              rw [hsp, linePieces, if_pos ⟨hbm, splitNl_ne_nil u⟩]
              congr 1
              have hsecond := (ih t htlen).2 k hk
              rw [hsp, dropBlanksKL_cons_blank m hbm (splitNl_ne_nil u)] at hsecond
              exact hsecond
            · exfalso
              have htw : t.takeWhile pyIsSpace = m.takeWhile pyIsSpace := by
                rw [hteq]
                exact takeWhile_ws_nonblank m _ (by simpa using hbm)
              rw [htw] at hk
              have hnone : lastNlIdx (m.takeWhile pyIsSpace) = none := by
                rw [lastNlIdx_none_iff]
                intro c hc
                exact hm c ((List.takeWhile_sublist _).subset hc)
              rw [hnone] at hk
              cases hk
        | none =>
          rw [reSplitAux_cons_nl_none t l hk]
          rw [reSplitAux_acc t.length t (l ++ ['\n']) (Nat.le_refl _)]
          have hfirst := (ih t htlen).1
          cases hsp : splitNl t with
          | nil => exact absurd hsp (splitNl_ne_nil t)
          | cons m ms =>
            have hcond : ¬(isBlankLine m = true ∧ ms ≠ []) := by
              rintro ⟨hbm, hne⟩
              rcases line_decomp t with hnlt | ⟨m', u, hteq, hm'⟩
              · rw [splitNl_no_nl t hnlt] at hsp
                injection hsp with h1 h2
                exact hne h2.symm
              · rw [hteq, splitNl_chars m' u hm'] at hsp
                injection hsp with h1 h2
                have hbm' : isBlankLine m' = true := by rw [h1]; exact hbm
                have htw : t.takeWhile pyIsSpace
                    = m' ++ '\n' :: u.takeWhile pyIsSpace := by
                  rw [hteq]
                  exact takeWhile_ws_blank m' u hbm'
                rw [htw] at hk
                have hsome := lastNlIdx_append_of_some m' _ _
                  (lastNlIdx_cons_nl (u.takeWhile pyIsSpace))
                rw [hsome] at hk
                cases hk
            rw [linePieces, if_neg hcond, ← hsp, ← hfirst]
            rw [reSplit]
    · intro k hk
      rcases line_decomp s with hnl | ⟨m, u, rfl, hm⟩
      · exfalso
        have hnone : lastNlIdx (s.takeWhile pyIsSpace) = none := by
          rw [lastNlIdx_none_iff]
          intro c hc
          exact hnl c ((List.takeWhile_sublist _).subset hc)
        rw [hnone] at hk
        cases hk
      · by_cases hbm : isBlankLine m = true
        · have hulen : u.length ≤ n := by
            simp only [List.length_append, List.length_cons] at hlen
            omega
          have htw : (m ++ '\n' :: u).takeWhile pyIsSpace
              = m ++ '\n' :: u.takeWhile pyIsSpace := takeWhile_ws_blank m u hbm
          rw [htw] at hk
          rw [splitNl_chars m u hm,
            dropBlanksKL_cons_blank m hbm (splitNl_ne_nil u)]
          cases hk2 : lastNlIdx (u.takeWhile pyIsSpace) with
          | none =>
            have hval : lastNlIdx (m ++ '\n' :: u.takeWhile pyIsSpace)
                = some (m.length + 0) := by
              apply lastNlIdx_append_of_some
              rw [lastNlIdx_cons_nl, hk2]
            rw [hval] at hk
            have hkeq : k = m.length := by
              injection hk with h2
              omega
            subst hkeq
            have hdrop : (m ++ '\n' :: u).drop (m.length + 1) = u := by
              have h3 := drop_append_len m ('\n' :: u) 1
              rw [h3]
              rfl
            rw [hdrop, dropBlanksKL_id_of_none u hk2]
            exact (ih u hulen).1
          | some k2 =>
            have hval : lastNlIdx (m ++ '\n' :: u.takeWhile pyIsSpace)
                = some (m.length + (k2 + 1)) := by
              apply lastNlIdx_append_of_some
              rw [lastNlIdx_cons_nl, hk2]
            rw [hval] at hk
            have hkeq : k = m.length + k2 + 1 := by
              injection hk with h2
              omega
            subst hkeq
            have hdrop : (m ++ '\n' :: u).drop (m.length + k2 + 1 + 1)
                = u.drop (k2 + 1) := by
              have h3 := drop_append_len m ('\n' :: u) (k2 + 2)
              have h4 : m.length + k2 + 1 + 1 = m.length + (k2 + 2) := by omega
              rw [h4, h3]
              rfl
            rw [hdrop]
            exact (ih u hulen).2 k2 hk2
        · exfalso
          have htw : (m ++ '\n' :: u).takeWhile pyIsSpace
              = m.takeWhile pyIsSpace :=
            takeWhile_ws_nonblank m _ (by simpa using hbm)
          rw [htw] at hk
          have hnone : lastNlIdx (m.takeWhile pyIsSpace) = none := by
            rw [lastNlIdx_none_iff]
            intro c hc
            exact hm c ((List.takeWhile_sublist _).subset hc)
          rw [hnone] at hk
          cases hk

/-- The regex split equals the line-level split. -/
theorem reSplit_eq_linePieces (s : List Char) :
    reSplit s = linePieces (splitNl s) :=
  (reSplit_linePieces_main s.length s (Nat.le_refl _)).1

end ChunkScript

namespace ChunkScript

open Py

theorem lstrip_nil_iff (l : List Char) :
    lstrip l = [] ↔ isBlankLine l = true := by
  rw [lstrip, isBlankLine, List.dropWhile_eq_nil_iff, List.all_eq_true]

theorem rstrip_nil_iff (a : List Char) :
    rstrip a = [] ↔ isBlankLine a = true := by
  rw [rstrip, List.reverse_eq_nil_iff, List.dropWhile_eq_nil_iff, isBlankLine,
    List.all_eq_true]
  constructor
  · intro h c hc
    exact h c (List.mem_reverse.mpr hc)
  · intro h c hc
    exact h c (List.mem_reverse.mp hc)

theorem blank_lstrip (l : List Char) :
    isBlankLine (lstrip l) = true ↔ isBlankLine l = true := by
  constructor
  · intro h
    have hsplit : l.takeWhile pyIsSpace ++ l.dropWhile pyIsSpace = l :=
      List.takeWhile_append_dropWhile pyIsSpace l
    rw [isBlankLine, ← hsplit, List.all_append]
    rw [isBlankLine, lstrip] at h
    rw [h]
    have htw : (l.takeWhile pyIsSpace).all pyIsSpace = true := by
      rw [List.all_eq_true]
      intro c hc
      exact List.mem_takeWhile_imp hc
    rw [htw]
    rfl
  · intro h
    rw [isBlankLine, List.all_eq_true] at h ⊢
    intro c hc
    exact h c ((List.dropWhile_sublist _).subset hc)

theorem strip_nil_iff (l : List Char) :
    pyStrip l = [] ↔ isBlankLine l = true := by
  rw [pyStrip, rstrip_nil_iff, blank_lstrip]

theorem lstrip_append_blank (w x : List Char) (hw : isBlankLine w = true) :
    lstrip (w ++ x) = lstrip x := by
  rw [lstrip, lstrip, List.dropWhile_append_of_pos]
  rw [isBlankLine, List.all_eq_true] at hw
  exact hw

theorem lstrip_append_nonblank (m b : List Char) (hm : isBlankLine m = false) :
    lstrip (m ++ b) = lstrip m ++ b := by
  rw [lstrip, lstrip, List.dropWhile_append, if_neg]
  intro hc
  rw [List.isEmpty_iff] at hc
  rw [(lstrip_nil_iff m).mp hc] at hm
  cases hm

theorem rstrip_append_blank (y w : List Char) (hw : isBlankLine w = true) :
    rstrip (y ++ w) = rstrip y := by
  rw [rstrip, rstrip, List.reverse_append, List.dropWhile_append_of_pos]
  rw [isBlankLine, List.all_eq_true] at hw
  intro c hc
  exact hw c (List.mem_reverse.mp hc)

theorem rstrip_append_nonblank (x a : List Char) (ha : isBlankLine a = false) :
    rstrip (x ++ a) = x ++ rstrip a := by
  rw [rstrip, rstrip, List.reverse_append, List.dropWhile_append, if_neg, List.reverse_append,
    List.reverse_reverse]
  intro hc
  rw [List.isEmpty_iff] at hc
  have : rstrip a = [] := by rw [rstrip, hc]; rfl
  rw [(rstrip_nil_iff a).mp this] at ha
  cases ha

theorem strip_append_blank_left (w x : List Char) (hw : isBlankLine w = true) :
    pyStrip (w ++ x) = pyStrip x := by
  rw [pyStrip, pyStrip, lstrip_append_blank w x hw]

theorem strip_append_blank_right (x w : List Char) (hw : isBlankLine w = true) :
    pyStrip (x ++ w) = pyStrip x := by
  by_cases hx : isBlankLine x = true
  · have h1 : isBlankLine (x ++ w) = true := by
      rw [isBlankLine, List.all_append]
      rw [isBlankLine] at hx hw
      rw [hx, hw]
      rfl
    rw [(strip_nil_iff _).mpr h1, (strip_nil_iff _).mpr hx]
  · have hx' : isBlankLine x = false := by simpa using hx
    rw [pyStrip, pyStrip, lstrip_append_nonblank x w hx',
      rstrip_append_blank (lstrip x) w hw]

theorem rstrip_length_le (y : List Char) : (rstrip y).length ≤ y.length := by
  have h := rstrip_decomp y
  have := congrArg List.length h
  simp only [List.length_append] at this
  omega

theorem nonblank_append (m α : List Char) (hm : isBlankLine m = false) :
    isBlankLine (m ++ α) = false := by
  rw [isBlankLine, List.all_append]
  rw [isBlankLine] at hm
  rw [hm]
  rfl

theorem rstrip_cong_of_strip_eq (m α β : List Char) (hm : isBlankLine m = false)
    (h : pyStrip (m ++ α) = pyStrip (m ++ β)) :
    rstrip (m ++ α) = rstrip (m ++ β) := by
  rw [pyStrip, pyStrip, lstrip_append_nonblank m α hm,
    lstrip_append_nonblank m β hm] at h
  by_cases ha : isBlankLine α = true
  · by_cases hb : isBlankLine β = true
    · rw [rstrip_append_blank m α ha, rstrip_append_blank m β hb]
    · exfalso
      have hb' : isBlankLine β = false := by simpa using hb
      rw [rstrip_append_blank _ α ha, rstrip_append_nonblank _ β hb'] at h
      have hlen := congrArg List.length h
      have h1 : (rstrip (lstrip m)).length ≤ (lstrip m).length := rstrip_length_le _
      have h2 : rstrip β ≠ [] := fun hc => hb ((rstrip_nil_iff β).mp hc)
      have h3 : 0 < (rstrip β).length := List.length_pos.mpr h2
      simp only [List.length_append] at hlen
      omega
  · by_cases hb : isBlankLine β = true
    · exfalso
      have ha' : isBlankLine α = false := by simpa using ha
      rw [rstrip_append_blank _ β hb, rstrip_append_nonblank _ α ha'] at h
      have hlen := congrArg List.length h
      have h1 : (rstrip (lstrip m)).length ≤ (lstrip m).length := rstrip_length_le _
      have h2 : rstrip α ≠ [] := fun hc => ha ((rstrip_nil_iff α).mp hc)
      have h3 : 0 < (rstrip α).length := List.length_pos.mpr h2
      simp only [List.length_append] at hlen
      omega
    · have ha' : isBlankLine α = false := by simpa using ha
      have hb' : isBlankLine β = false := by simpa using hb
      rw [rstrip_append_nonblank _ α ha', rstrip_append_nonblank _ β hb'] at h
      have hab := List.append_cancel_left h
      rw [rstrip_append_nonblank m α ha', rstrip_append_nonblank m β hb', hab]

theorem strip_cons_nl (l X : List Char) (hl : isBlankLine l = false)
    (hX : isBlankLine X = false) :
    pyStrip (l ++ '\n' :: X) = lstrip l ++ '\n' :: rstrip X := by
  have hnb : isBlankLine ('\n' :: X) = false := by
    rw [isBlankLine, List.all_cons]
    rw [isBlankLine] at hX
    rw [hX]
    simp
  rw [pyStrip, lstrip_append_nonblank l ('\n' :: X) hl,
    rstrip_append_nonblank (lstrip l) ('\n' :: X) hnb]
  have h2 : rstrip ('\n' :: X) = '\n' :: rstrip X := by
    have h3 := rstrip_append_nonblank ['\n'] X hX
    simpa using h3
  rw [h2]

end ChunkScript

namespace ChunkScript

open Py

theorem filterStrip_cons (p : List Char) (ps : List (List Char)) :
    filterStrip (p :: ps) =
      if (pyStrip p).isEmpty then filterStrip ps
      else pyStrip p :: filterStrip ps := by
  rw [filterStrip, filterStrip, List.map_cons, List.filter_cons]
  by_cases h : (pyStrip p).isEmpty = true
  · rw [if_pos h, if_neg (by simp [h])]
  · rw [if_neg h, if_pos (by simp [Bool.not_eq_true'] at h ⊢; exact h)]

theorem groupStrip_cons (g : List (List Char)) (gs : List (List (List Char))) :
    groupStrip (g :: gs) =
      if (pyStrip (joinNl g)).isEmpty then groupStrip gs
      else pyStrip (joinNl g) :: groupStrip gs := by
  rw [groupStrip, groupStrip, List.map_cons, List.filter_cons]
  by_cases h : (pyStrip (joinNl g)).isEmpty = true
  · rw [if_pos h, if_neg (by simp [h])]
  · rw [if_neg h, if_pos (by simp [Bool.not_eq_true'] at h ⊢; exact h)]

theorem joinNl_cons (m : List Char) {g : List (List Char)} (h : g ≠ []) :
    joinNl (m :: g) = m ++ '\n' :: joinNl g := by
  cases g with
  | nil => exact absurd rfl h
  | cons x xs => rfl

theorem joinNl_cons_ex (m : List Char) (g : List (List Char)) :
    ∃ β, joinNl (m :: g) = m ++ β := by
  cases g with
  | nil => exact ⟨[], by simp [joinNl]⟩
  | cons x xs => exact ⟨'\n' :: joinNl (x :: xs), rfl⟩

theorem consHead_ne_nil {α : Type} (a : α) (ps : List (List α)) :
    consHead a ps ≠ [] := by
  cases ps <;> simp [consHead]

theorem splitOnBlankLines_ne_nil (ls : List (List Char)) :
    splitOnBlankLines ls ≠ [] := by
  cases ls with
  | nil => simp [splitOnBlankLines]
  | cons l rest =>
    rw [splitOnBlankLines]
    by_cases h : isBlankLine l = true
    · rw [if_pos h]; simp
    · rw [if_neg h]; exact consHead_ne_nil _ _

theorem splitOnBlankLines_cons_nonblank (m : List Char) (ms : List (List Char))
    (hm : isBlankLine m = false) :
    ∃ g gs, splitOnBlankLines (m :: ms) = (m :: g) :: gs := by
  rw [splitOnBlankLines, if_neg (by rw [hm]; intro h; cases h)]
  cases h : splitOnBlankLines ms with
  | nil => exact absurd h (splitOnBlankLines_ne_nil ms)
  | cons g gs => exact ⟨g, gs, rfl⟩

theorem linePieces_head_ex (m : List Char) (ms : List (List Char)) :
    ∃ α rest, linePieces (m :: ms) = (m ++ α) :: rest := by
  cases ms with
  | nil => exact ⟨[], [], by simp [linePieces]⟩
  | cons mm ms' =>
    rw [linePieces]
    by_cases hc : isBlankLine mm = true ∧ ms' ≠ []
    · rw [if_pos hc]
      exact ⟨[], linePieces (dropBlanksKL ms'), by simp⟩
    · rw [if_neg hc]
      cases hLP : linePieces (mm :: ms') with
      | nil => exact absurd hLP (linePieces_ne_nil _)
      | cons P Ps =>
        refine ⟨'\n' :: P, Ps, ?_⟩
        rw [consPre]
        simp

/-- Dropping the leading blank lines after a separator does not change
the final (stripped, filtered) piece list. -/
theorem filterStrip_linePieces_dropBlanks :
    ∀ (n : Nat) (ms : List (List Char)), ms.length ≤ n →
      filterStrip (linePieces (dropBlanksKL ms)) = filterStrip (linePieces ms) := by
  intro n
  induction n with
  | zero =>
    intro ms hlen
    cases ms with
    | nil => rfl
    | cons m rest => simp at hlen
  | succ n ih =>
    intro ms hlen
    cases ms with
    | nil => rfl
    | cons m rest =>
      cases rest with
      | nil => rfl
      | cons mm rest' =>
        simp only [List.length_cons] at hlen
        by_cases hm : isBlankLine m = true
        · rw [dropBlanksKL, if_pos hm]
          rw [ih (mm :: rest') (by simp only [List.length_cons]; omega)]
          by_cases hc : isBlankLine mm = true ∧ rest' ≠ []
          · rw [linePieces, if_pos hc, filterStrip_cons,
              if_pos (by rw [List.isEmpty_iff]; exact (strip_nil_iff m).mpr hm)]
            rw [← ih (mm :: rest') (by simp only [List.length_cons]; omega)]
            rw [dropBlanksKL_cons_blank mm hc.1 hc.2]
          · rw [linePieces, if_neg hc]
            cases hLP : linePieces (mm :: rest') with
            | nil => exact absurd hLP (linePieces_ne_nil _)
            | cons P Ps =>
              rw [consPre, filterStrip_cons, filterStrip_cons]
              have hblank : isBlankLine (m ++ ['\n']) = true := by
                rw [isBlankLine, List.all_append]
                rw [isBlankLine] at hm
                rw [hm]
                simp [pyIsSpace]
              have hstrip : pyStrip ((m ++ ['\n']) ++ P) = pyStrip P :=
                strip_append_blank_left _ _ hblank
              rw [hstrip]
        · rw [dropBlanksKL, if_neg hm]

end ChunkScript

namespace ChunkScript

open Py

/-- The stripped, filtered pieces of the regex split (in its line-level
form) coincide with the spec-side blank-line grouping. -/
theorem filterStrip_linePieces_eq :
    ∀ (n : Nat) (ls : List (List Char)), ls.length ≤ n →
      filterStrip (linePieces ls) = groupStrip (splitOnBlankLines ls) := by
  intro n
  induction n with
  | zero =>
    intro ls hlen
    cases ls with
    | cons l rest => simp at hlen
    | nil =>
      rw [linePieces, splitOnBlankLines, filterStrip_cons, groupStrip_cons,
        if_pos (by decide), if_pos (by decide)]
      rfl
  | succ n ih =>
    intro ls hlen
    cases ls with
    | nil =>
      rw [linePieces, splitOnBlankLines, filterStrip_cons, groupStrip_cons,
        if_pos (by decide), if_pos (by decide)]
      rfl
    | cons l rest =>
      cases rest with
      | nil =>
        rw [show linePieces [l] = [l] from by simp [linePieces]]
        by_cases hb : isBlankLine l = true
        · have hSB : splitOnBlankLines [l] = [[], []] := by
            rw [splitOnBlankLines, if_pos hb]
            rfl
          rw [hSB, filterStrip_cons,
            if_pos (by rw [List.isEmpty_iff]; exact (strip_nil_iff l).mpr hb),
            groupStrip_cons, if_pos (by decide), groupStrip_cons,
            if_pos (by decide)]
          rfl
        · have hSB : splitOnBlankLines [l] = [[l]] := by
            rw [splitOnBlankLines, if_neg hb]
            rfl
          rw [hSB, filterStrip_cons, groupStrip_cons,
            show joinNl [l] = l from rfl]
          rfl
      | cons mm ms' =>
        simp only [List.length_cons] at hlen
        by_cases hc : isBlankLine mm = true ∧ ms' ≠ []
        · rw [linePieces, if_pos hc, filterStrip_cons, splitOnBlankLines]
          by_cases hbl : isBlankLine l = true
          · rw [if_pos hbl,
              if_pos (by rw [List.isEmpty_iff]; exact (strip_nil_iff l).mpr hbl),
              groupStrip_cons, if_pos (by decide), splitOnBlankLines,
              if_pos hc.1, groupStrip_cons, if_pos (by decide),
              filterStrip_linePieces_dropBlanks ms'.length ms' (Nat.le_refl _),
              ih ms' (by omega)]
          · rw [if_neg hbl,
              if_neg (fun hemp => hbl
                ((strip_nil_iff l).mp (List.isEmpty_iff.mp hemp))),
              splitOnBlankLines, if_pos hc.1,
              show consHead l ([] :: splitOnBlankLines ms')
                  = [l] :: splitOnBlankLines ms' from rfl,
              groupStrip_cons, show joinNl [l] = l from rfl,
              if_neg (fun hemp => hbl
                ((strip_nil_iff l).mp (List.isEmpty_iff.mp hemp))),
              filterStrip_linePieces_dropBlanks ms'.length ms' (Nat.le_refl _),
              ih ms' (by omega)]
        · rw [linePieces, if_neg hc]
          by_cases hbm : isBlankLine mm = true
          · have hms : ms' = [] := by
              by_contra hne
              exact hc ⟨hbm, hne⟩
            subst hms
            rw [show linePieces [mm] = [mm] from by simp [linePieces],
              show consPre (l ++ ['\n']) [mm] = [l ++ '\n' :: mm] from by
                rw [consPre]; simp]
            have hbw : isBlankLine ('\n' :: mm) = true := by
              rw [isBlankLine, List.all_cons]
              rw [isBlankLine] at hbm
              rw [hbm]
              simp [pyIsSpace]
            have habs : pyStrip (l ++ '\n' :: mm) = pyStrip l :=
              strip_append_blank_right l ('\n' :: mm) hbw
            rw [filterStrip_cons, habs, splitOnBlankLines]
            by_cases hbl : isBlankLine l = true
            · rw [if_pos hbl,
                if_pos (by rw [List.isEmpty_iff]; exact (strip_nil_iff l).mpr hbl),
                groupStrip_cons, if_pos (by decide),
                show splitOnBlankLines [mm] = [[], []] from by
                  rw [splitOnBlankLines, if_pos hbm]; rfl,
                groupStrip_cons, if_pos (by decide), groupStrip_cons,
                if_pos (by decide)]
              rfl
            · rw [if_neg hbl,
                if_neg (fun hemp => hbl
                  ((strip_nil_iff l).mp (List.isEmpty_iff.mp hemp))),
                show splitOnBlankLines [mm] = [[], []] from by
                  rw [splitOnBlankLines, if_pos hbm]; rfl,
                show consHead l [[], []] = [l] :: [[]] from rfl,
                groupStrip_cons, show joinNl [l] = l from rfl,
                if_neg (fun hemp => hbl
                  ((strip_nil_iff l).mp (List.isEmpty_iff.mp hemp))),
                groupStrip_cons, if_pos (by decide)]
              rfl
          · have hbm' : isBlankLine mm = false := by simpa using hbm
            obtain ⟨α, Ps, hLP⟩ := linePieces_head_ex mm ms'
            obtain ⟨g, gs, hSB⟩ := splitOnBlankLines_cons_nonblank mm ms' hbm'
            obtain ⟨β, hJ⟩ := joinNl_cons_ex mm g
            have hnba : isBlankLine (mm ++ α) = false := nonblank_append mm α hbm'
            have hnbb : isBlankLine (joinNl (mm :: g)) = false := by
              rw [hJ]
              exact nonblank_append mm β hbm'
            have hne1 : ¬((pyStrip (mm ++ α)).isEmpty = true) := by
              intro hemp
              rw [List.isEmpty_iff] at hemp
              rw [(strip_nil_iff _).mp hemp] at hnba
              cases hnba
            have hne2 : ¬((pyStrip (joinNl (mm :: g))).isEmpty = true) := by
              intro hemp
              rw [List.isEmpty_iff] at hemp
              rw [(strip_nil_iff _).mp hemp] at hnbb
              cases hnbb
            have hIH := ih (mm :: ms') (by simp only [List.length_cons]; omega)
            rw [hLP, hSB, filterStrip_cons, groupStrip_cons, if_neg hne1,
              if_neg hne2] at hIH
            injection hIH with hhead htail
            rw [hLP,
              show consPre (l ++ ['\n']) ((mm ++ α) :: Ps)
                  = (l ++ '\n' :: (mm ++ α)) :: Ps from by rw [consPre]; simp,
              filterStrip_cons, splitOnBlankLines]
            by_cases hbl : isBlankLine l = true
            · have hbw : isBlankLine (l ++ ['\n']) = true := by
                rw [isBlankLine, List.all_append]
                rw [isBlankLine] at hbl
                rw [hbl]
                simp [pyIsSpace]
              have habs : pyStrip (l ++ '\n' :: (mm ++ α)) = pyStrip (mm ++ α) := by
                rw [show l ++ '\n' :: (mm ++ α) = (l ++ ['\n']) ++ (mm ++ α) from by
                  simp]
                exact strip_append_blank_left _ _ hbw
              rw [if_pos hbl, habs, if_neg hne1, hhead, htail, groupStrip_cons,
                if_pos (by decide), hSB, groupStrip_cons, if_neg hne2]
            · have hbl' : isBlankLine l = false := by simpa using hbl
              rw [if_neg hbl, hSB,
                show consHead l ((mm :: g) :: gs) = (l :: mm :: g) :: gs from rfl,
                groupStrip_cons, joinNl_cons l (by simp)]
              have hcong : rstrip (mm ++ α) = rstrip (joinNl (mm :: g)) := by
                rw [hJ]
                exact rstrip_cong_of_strip_eq mm α β hbm' (by rw [← hJ]; exact hhead)
              have hs1 : pyStrip (l ++ '\n' :: (mm ++ α))
                  = lstrip l ++ '\n' :: rstrip (mm ++ α) :=
                strip_cons_nl l (mm ++ α) hbl' hnba
              have hs2 : pyStrip (l ++ '\n' :: joinNl (mm :: g))
                  = lstrip l ++ '\n' :: rstrip (joinNl (mm :: g)) :=
                strip_cons_nl l _ hbl' hnbb
              rw [hs1, hs2, hcong, htail]

/-- C9: `split_into_paragraphs` splits its input on every run of one or
more blank lines (whitespace-only lines), trims each resulting piece of
leading and trailing whitespace, drops pieces that become empty, and
preserves order — it equals the spec-side `specSegment`; and being a
pure function, a second call on the same text yields the identical
ordered output. -/
theorem c9_segmentation (text : List Char) :
    split_into_paragraphs text = specSegment text ∧
    split_into_paragraphs text = split_into_paragraphs text := by
  refine ⟨?_, rfl⟩
  rw [split_into_paragraphs, specSegment, reSplit_eq_linePieces]
  exact filterStrip_linePieces_eq (splitNl text).length (splitNl text)
    (Nat.le_refl _)

end ChunkScript
